import Mathlib

/-!
Verification of the midi piano-roll editor (App shell and the
HorizontalPianoRoll component).  JavaScript numbers are modelled as exact
rationals, Math.round as round-half-up on rationals, arrays as lists, and
the mutable refs of the component as explicit state records.
-/

/-- Model of Math.round in JavaScript: round half toward positive infinity. -/
def jsRound (q : ℚ) : ℤ := ⌊q + 1/2⌋

/-- A midi note as held in the note store (interface Note in
HorizontalPianoRoll.tsx). -/
structure Note where
  pitch : ℤ
  startTime : ℚ
  duration : ℚ
  velocity : Option ℤ := none
deriving DecidableEq, Repr, Inhabited

/-- Model of getSubdivisionBeats in HorizontalPianoRoll.tsx: subdivision
name to a multiplier in beats, defaulting to one half. -/
def getSubdivisionBeats (s : String) : ℚ :=
  match s with
  | "1/1" => 4
  | "1/2" => 2
  | "1/4" => 1
  | "1/8" => 1/2
  | "1/8T" => 1/3
  | "1/16" => 1/4
  | "1/16T" => 1/6
  | "1/32" => 1/8
  | _ => 1/2

/-- Seconds per subdivision step: secondsPerBeat * subdivBeats with
secondsPerBeat = 60 / tempo (handleKeyDown in HorizontalPianoRoll.tsx). -/
def secondsPerSubdiv (tempo subdivBeats : ℚ) : ℚ :=
  60 / tempo * subdivBeats

/-- The per-note quantize operation of the Q-key branch of handleKeyDown:
gridPosition = Math.round((startTime - offset) / secondsPerSubdiv);
startTime = Math.max(0, offset + gridPosition * secondsPerSubdiv). -/
def quantizeStart (sps offset t : ℚ) : ℚ :=
  max 0 (offset + (jsRound ((t - offset) / sps) : ℚ) * sps)

/-- The per-note time-nudge operation of the ArrowLeft/ArrowRight branch of
handleKeyDown: startTime = Math.max(0, startTime + direction * sps); then
re-snap with gridPosition = Math.round((startTime - offset) / sps);
startTime = offset + gridPosition * sps (note: no second clamp). -/
def nudgeStart (sps offset : ℚ) (dir : ℤ) (t : ℚ) : ℚ :=
  let t1 := max 0 (t + (dir : ℚ) * sps)
  offset + (jsRound ((t1 - offset) / sps) : ℚ) * sps

/-- The active test of updatePlayhead in HorizontalPianoRoll.tsx:
elapsed >= note.startTime and elapsed < note.startTime + note.duration. -/
def isActiveNote (t : ℚ) (n : Note) : Bool :=
  decide (n.startTime ≤ t) && decide (t < n.startTime + n.duration)

/-- The pitches collected into the active set each frame by updatePlayhead. -/
def activePitches (notes : List Note) (t : ℚ) : List ℤ :=
  (notes.filter (isActiveNote t)).map (fun n => n.pitch)

/-- Model of the BPM input field's onChange in App:
setTempo(Math.max(1, Number(e.target.value))). -/
def setTempoFromInput (v : ℚ) : ℚ := max 1 v

section ActiveNotes

/-- C4: the active set computed each frame contains exactly the pitches of
notes whose half-open interval [startTime, startTime + duration) contains
the current time; the note with startTime 2 and duration 1 is active at
t = 2 and t = 2.99 and inactive at t = 1.99 and t = 3. -/
theorem active_pitches_halfOpen :
    (∀ (notes : List Note) (t : ℚ) (p : ℤ),
      p ∈ activePitches notes t ↔
        ∃ n ∈ notes, n.pitch = p ∧ n.startTime ≤ t ∧ t < n.startTime + n.duration) ∧
    (60 ∈ activePitches [⟨60, 2, 1, none⟩] 2) ∧
    (60 ∈ activePitches [⟨60, 2, 1, none⟩] (299/100)) ∧
    (60 ∉ activePitches [⟨60, 2, 1, none⟩] (199/100)) ∧
    (60 ∉ activePitches [⟨60, 2, 1, none⟩] 3) := by
  refine ⟨?_, by norm_num [activePitches, isActiveNote],
    by norm_num [activePitches, isActiveNote],
    by norm_num [activePitches, isActiveNote],
    by norm_num [activePitches, isActiveNote]⟩
  intro notes t p
  simp only [activePitches, List.mem_map, List.mem_filter, isActiveNote,
    Bool.and_eq_true, decide_eq_true_eq]
  constructor
  · rintro ⟨n, ⟨hn, h1, h2⟩, hp⟩
    exact ⟨n, hn, hp, h1, h2⟩
  · rintro ⟨n, hn, hp, h1, h2⟩
    exact ⟨n, ⟨hn, h1, h2⟩, hp⟩

end ActiveNotes

section GridArithmetic

theorem jsRound_intCast (k : ℤ) : jsRound (k : ℚ) = k := by
  unfold jsRound
  rw [Int.floor_int_add]
  norm_num

theorem jsRound_mono {a b : ℚ} (h : a ≤ b) : jsRound a ≤ jsRound b :=
  Int.floor_le_floor (by linarith)

theorem getSubdivisionBeats_pos (s : String) : 0 < getSubdivisionBeats s := by
  unfold getSubdivisionBeats
  split <;> norm_num

theorem secondsPerSubdiv_pos {tempo b : ℚ} (ht : 0 < tempo) (hb : 0 < b) :
    0 < secondsPerSubdiv tempo b := by
  unfold secondsPerSubdiv
  positivity

/-- Idempotence of the per-note quantize map over an arbitrary positive
subdivision length, for any note with a nonnegative start time. -/
theorem quantizeStart_idem (sps offset t : ℚ) (hsps : 0 < sps) (ht : 0 ≤ t) :
    quantizeStart sps offset (quantizeStart sps offset t) = quantizeStart sps offset t := by
  have hne : sps ≠ 0 := ne_of_gt hsps
  set k := jsRound ((t - offset) / sps) with hk
  set q := offset + (k : ℚ) * sps with hqdef
  have hQ : quantizeStart sps offset t = max 0 q := rfl
  rcases le_or_lt 0 q with hq | hq
  · have h1 : max 0 q = q := max_eq_right hq
    rw [hQ, h1]
    unfold quantizeStart
    have h2 : (q - offset) / sps = (k : ℚ) := by
      rw [hqdef]
      field_simp
    rw [h2, jsRound_intCast, ← hqdef, h1]
  · have h1 : max 0 q = 0 := max_eq_left (le_of_lt hq)
    rw [hQ, h1]
    unfold quantizeStart
    have hmono : jsRound ((0 - offset) / sps) ≤ k := by
      apply jsRound_mono
      apply div_le_div_of_nonneg_right (by linarith) hsps.le
    have hle : offset + (jsRound ((0 - offset) / sps) : ℚ) * sps ≤ q := by
      rw [hqdef]
      have : (jsRound ((0 - offset) / sps) : ℚ) ≤ (k : ℚ) := by exact_mod_cast hmono
      nlinarith
    exact max_eq_left (by linarith)

/-- C3: quantize is idempotent at every tempo, offset and subdivision, for
any note with nonnegative start time: the quantized start time is itself a
fixed point of quantization with the same parameters. -/
theorem quantize_idempotent (tempo offset t : ℚ) (subdivName : String)
    (htempo : 0 < tempo) (ht : 0 ≤ t) :
    quantizeStart (secondsPerSubdiv tempo (getSubdivisionBeats subdivName)) offset
        (quantizeStart (secondsPerSubdiv tempo (getSubdivisionBeats subdivName)) offset t)
      = quantizeStart (secondsPerSubdiv tempo (getSubdivisionBeats subdivName)) offset t :=
  quantizeStart_idem _ offset t
    (secondsPerSubdiv_pos htempo (getSubdivisionBeats_pos subdivName)) ht

/-- Witness for quantize idempotence at tempo 120, subdivision one eighth,
offset 0 and start time one quarter second. -/
theorem quantize_idempotent_witness :
    (0 : ℚ) < 120 ∧ (0 : ℚ) ≤ 1/4 ∧
    quantizeStart (secondsPerSubdiv 120 (getSubdivisionBeats "1/8")) 0
        (quantizeStart (secondsPerSubdiv 120 (getSubdivisionBeats "1/8")) 0 (1/4))
      = quantizeStart (secondsPerSubdiv 120 (getSubdivisionBeats "1/8")) 0 (1/4) :=
  ⟨by norm_num, by norm_num,
    quantize_idempotent 120 0 (1/4) "1/8" (by norm_num) (by norm_num)⟩

/-- C2 counterexample: at tempo 60 (inside the range 1..300), subdivision
one quarter (one second per step) and offset 0.6 s, nudging a selected note
that starts at 0.6 s one step to the left yields start time -0.4 s: the
re-snap after the clamp is itself not clamped, so the result is negative. -/
theorem nudge_negative_counterexample :
    nudgeStart (secondsPerSubdiv 60 (getSubdivisionBeats "1/4")) (3/5) (-1) (3/5)
        = -(2/5) ∧
    ¬ (0 : ℚ) ≤ nudgeStart (secondsPerSubdiv 60 (getSubdivisionBeats "1/4")) (3/5) (-1) (3/5) := by
  have h : nudgeStart (secondsPerSubdiv 60 (getSubdivisionBeats "1/4")) (3/5) (-1) (3/5)
      = -(2/5) := by
    show (3/5 : ℚ) + (jsRound ((max 0 ((3:ℚ)/5 + (((-1 : ℤ) : ℚ)) * (60 / 60 * 1)) - 3/5)
        / (60 / 60 * 1)) : ℚ) * (60 / 60 * 1) = -(2/5)
    norm_num [jsRound]
  refine ⟨h, by rw [h]; norm_num⟩

/-- C2 amended: the nudge result is always grid-aligned (it has the form
offset + k * secondsPerSubdiv for an integer k) and always greater than
minus half a subdivision; it is nonnegative whenever the offset is 0, but
it is not clamped to be nonnegative in general. -/
theorem nudge_grid_aligned (tempo offset t : ℚ) (subdivName : String) (dir : ℤ)
    (h1 : 1 ≤ tempo) (h2 : tempo ≤ 300) :
    (∃ k : ℤ, nudgeStart (secondsPerSubdiv tempo (getSubdivisionBeats subdivName)) offset dir t
        = offset + (k : ℚ) * secondsPerSubdiv tempo (getSubdivisionBeats subdivName)) ∧
    -(secondsPerSubdiv tempo (getSubdivisionBeats subdivName) / 2)
        < nudgeStart (secondsPerSubdiv tempo (getSubdivisionBeats subdivName)) offset dir t ∧
    (offset = 0 →
      0 ≤ nudgeStart (secondsPerSubdiv tempo (getSubdivisionBeats subdivName)) offset dir t) := by
  set sps := secondsPerSubdiv tempo (getSubdivisionBeats subdivName) with hsd
  have hsps : 0 < sps := secondsPerSubdiv_pos (by linarith) (getSubdivisionBeats_pos subdivName)
  have hne : sps ≠ 0 := ne_of_gt hsps
  set t1 := max 0 (t + (dir : ℚ) * sps) with ht1def
  have ht1 : 0 ≤ t1 := le_max_left 0 _
  set k := jsRound ((t1 - offset) / sps) with hkdef
  have hval : nudgeStart sps offset dir t = offset + (k : ℚ) * sps := rfl
  refine ⟨⟨k, hval⟩, ?_, ?_⟩
  · rw [hval]
    have hmono : jsRound ((0 - offset) / sps) ≤ k := by
      apply jsRound_mono
      apply div_le_div_of_nonneg_right (by linarith) hsps.le
    have hfl : (0 - offset) / sps + 1/2 - 1 < (jsRound ((0 - offset) / sps) : ℚ) :=
      Int.sub_one_lt_floor _
    have hkq : (0 - offset) / sps - 1/2 < (k : ℚ) := by
      have : (jsRound ((0 - offset) / sps) : ℚ) ≤ (k : ℚ) := by exact_mod_cast hmono
      linarith
    have hmul : ((0 - offset) / sps - 1/2) * sps < (k : ℚ) * sps :=
      mul_lt_mul_of_pos_right hkq hsps
    have hexp : ((0 - offset) / sps - 1/2) * sps = -offset - sps / 2 := by
      field_simp
      ring
    rw [hexp] at hmul
    linarith
  · intro hoff
    rw [hval, hoff]
    have hknn : (0 : ℤ) ≤ k := by
      rw [hkdef]
      apply Int.le_floor.mpr
      push_cast
      simp only [hoff, sub_zero]
      have : 0 ≤ t1 / sps := div_nonneg ht1 (le_of_lt hsps)
      linarith
    have hc : (0 : ℚ) ≤ (k : ℚ) := by exact_mod_cast hknn
    have := mul_nonneg hc hsps.le
    linarith

/-- Witness for the amended nudge property at tempo 120, subdivision one
eighth, offset 0, start time 1, direction right. -/
theorem nudge_grid_aligned_witness :
    (1 : ℚ) ≤ 120 ∧ (120 : ℚ) ≤ 300 ∧
    ((∃ k : ℤ, nudgeStart (secondsPerSubdiv 120 (getSubdivisionBeats "1/8")) 0 1 1
        = 0 + (k : ℚ) * secondsPerSubdiv 120 (getSubdivisionBeats "1/8")) ∧
    -(secondsPerSubdiv 120 (getSubdivisionBeats "1/8") / 2)
        < nudgeStart (secondsPerSubdiv 120 (getSubdivisionBeats "1/8")) 0 1 1 ∧
    ((0 : ℚ) = 0 →
      0 ≤ nudgeStart (secondsPerSubdiv 120 (getSubdivisionBeats "1/8")) 0 1 1)) :=
  ⟨by norm_num, by norm_num,
    nudge_grid_aligned 120 0 1 "1/8" 1 (by norm_num) (by norm_num)⟩

end GridArithmetic

section TempoEntry

/-- The clamp applied by handleTapTempo in App:
setTempo(Math.min(300, Math.max(1, bpm))). -/
def clampTempo (b : ℚ) : ℚ := min 300 (max 1 b)

/-- The mutable tap-tempo state of App: the tap time array held in
tapTimesRef, and the tempo state. -/
structure TapState where
  taps : List ℚ
  tempo : ℚ
deriving DecidableEq, Repr

/-- The successive intervals of the tap time array (the loop building
intervals in handleTapTempo). -/
def tapIntervals (l : List ℚ) : List ℚ :=
  List.zipWith (fun a b => a - b) l.tail l

/-- The tempo produced from the working tap array: updated only when at
least two taps are present, from the rounded 60000 / average interval. -/
def tapTempoValue (working : List ℚ) (old : ℚ) : ℚ :=
  if 2 ≤ working.length then
    clampTempo
      ((jsRound (60000 / ((tapIntervals working).sum / ((tapIntervals working).length : ℚ))) : ℤ) : ℚ)
  else old

/-- The working array of handleTapTempo after the push and the
keep-only-last-8 shift, starting from the array the local variable taps
aliases. -/
def tapWorking (now : ℚ) (taps : List ℚ) : List ℚ :=
  if 8 < (taps ++ [now]).length then (taps ++ [now]).tail else taps ++ [now]

/-- Model of handleTapTempo in App.  The local variable taps aliases the
old array: the reset reassigns the ref to a fresh empty array, but the push
and the BPM computation still operate on the old array, so on a reset tap
the stored array becomes empty while the tempo is computed from the old
taps plus the triggering tap. -/
def handleTapTempo (now : ℚ) (s : TapState) : TapState :=
  { taps :=
      if !s.taps.isEmpty && decide (2000 < now - s.taps.getLastD 0) then []
      else tapWorking now s.taps,
    tempo := tapTempoValue (tapWorking now s.taps) s.tempo }

theorem clampTempo_bounds (b : ℚ) : 1 ≤ clampTempo b ∧ clampTempo b ≤ 300 :=
  ⟨le_min (by norm_num) (le_max_left 1 b), min_le_left 300 _⟩

/-- C7 counterexample: typing 500 into the BPM field stores tempo 500; the
manual input clamps only from below, never to the 1..300 upper bound. -/
theorem manual_tempo_not_clamped_above :
    setTempoFromInput 500 = 500 ∧ ¬ setTempoFromInput 500 ≤ 300 := by
  constructor <;> norm_num [setTempoFromInput]

/-- C7 amended: the manual BPM input clamps only from below (the stored
tempo is always at least 1, but values above 300 pass through), while the
tap-tempo path either leaves the tempo unchanged or stores a value clamped
into 1..300. -/
theorem tempo_entry_clamping :
    (∀ v : ℚ, 1 ≤ setTempoFromInput v) ∧
    (∀ (now : ℚ) (s : TapState),
      (handleTapTempo now s).tempo = s.tempo ∨
        (1 ≤ (handleTapTempo now s).tempo ∧ (handleTapTempo now s).tempo ≤ 300)) := by
  constructor
  · intro v
    exact le_max_left 1 v
  · intro now s
    have hproj : (handleTapTempo now s).tempo
        = tapTempoValue (tapWorking now s.taps) s.tempo := rfl
    rw [hproj]
    unfold tapTempoValue
    split
    · right
      constructor
      · exact (clampTempo_bounds _).1
      · exact (clampTempo_bounds _).2
    · left
      rfl

theorem handleTapTempo_from_empty (t : ℚ) (s : TapState) (h : s.taps = []) :
    handleTapTempo t s = { taps := [t], tempo := s.tempo } := by
  unfold handleTapTempo
  rw [h]
  simp [tapWorking, tapTempoValue, tapIntervals]

theorem handleTapTempo_from_pair (t1 t2 : ℚ) (s : TapState) (h : s.taps = [t1]) :
    (handleTapTempo t2 s).tempo = clampTempo ((jsRound (60000 / (t2 - t1)) : ℤ) : ℚ) := by
  have hproj : (handleTapTempo t2 s).tempo
      = tapTempoValue (tapWorking t2 s.taps) s.tempo := rfl
  rw [hproj, h]
  have hw : tapWorking t2 [t1] = [t1, t2] := by
    simp [tapWorking]
  rw [hw]
  unfold tapTempoValue
  rw [if_pos (by norm_num)]
  have hint : tapIntervals [t1, t2] = [t2 - t1] := by
    simp [tapIntervals]
  rw [hint]
  simp

/-- C10: a tap arriving more than 2000 ms after the previous tap leaves the
stored tap array empty (the prior sequence is discarded and the triggering
tap itself is pushed onto the discarded array), so one further tap leaves
the tempo unchanged and only a second further tap updates it, from the
interval between those two taps alone. -/
theorem tap_reset_loses_trigger (now t1 t2 : ℚ) (s : TapState)
    (hne : s.taps ≠ []) (hgap : 2000 < now - s.taps.getLastD 0) :
    (handleTapTempo now s).taps = [] ∧
    (handleTapTempo t1 (handleTapTempo now s)).taps = [t1] ∧
    (handleTapTempo t1 (handleTapTempo now s)).tempo = (handleTapTempo now s).tempo ∧
    (handleTapTempo t2 (handleTapTempo t1 (handleTapTempo now s))).tempo
      = clampTempo ((jsRound (60000 / (t2 - t1)) : ℤ) : ℚ) := by
  have hcond : (!s.taps.isEmpty && decide (2000 < now - s.taps.getLastD 0)) = true := by
    simp only [Bool.and_eq_true, Bool.not_eq_true', decide_eq_true_eq]
    exact ⟨by simpa [List.isEmpty_iff] using hne, hgap⟩
  have h1 : (handleTapTempo now s).taps = [] := by
    have hproj : (handleTapTempo now s).taps
        = if !s.taps.isEmpty && decide (2000 < now - s.taps.getLastD 0) then []
          else tapWorking now s.taps := rfl
    rw [hproj, if_pos hcond]
  have h2 := handleTapTempo_from_empty t1 (handleTapTempo now s) h1
  refine ⟨h1, ?_, ?_, ?_⟩
  · rw [h2]
  · rw [h2]
  · exact handleTapTempo_from_pair t1 t2 _ (by rw [h2])

/-- Witness for the tap-reset behaviour: taps at 0 and 500 ms, a late tap
at 3000 ms, then fresh taps at 4000 and 4500 ms. -/
theorem tap_reset_loses_trigger_witness :
    (([0, 500] : List ℚ) ≠ [] ∧ (2000 : ℚ) < 3000 - ([0, 500] : List ℚ).getLastD 0) ∧
    ((handleTapTempo 3000 ⟨[0, 500], 120⟩).taps = [] ∧
    (handleTapTempo 4000 (handleTapTempo 3000 ⟨[0, 500], 120⟩)).taps = [4000] ∧
    (handleTapTempo 4000 (handleTapTempo 3000 ⟨[0, 500], 120⟩)).tempo
      = (handleTapTempo 3000 ⟨[0, 500], 120⟩).tempo ∧
    (handleTapTempo 4500 (handleTapTempo 4000 (handleTapTempo 3000 ⟨[0, 500], 120⟩))).tempo
      = clampTempo ((jsRound (60000 / ((4500 : ℚ) - 4000)) : ℤ) : ℚ)) :=
  ⟨⟨by simp, by norm_num [List.getLastD]⟩,
    tap_reset_loses_trigger 3000 4000 4500 ⟨[0, 500], 120⟩ (by simp)
      (by norm_num [List.getLastD])⟩

end TempoEntry

section History

/-- The undo/redo state of App: historyRef (a list of note-store
snapshots), historyIndexRef (an integer cursor, -1 before any state is
recorded) and the live notes state. -/
structure AppHistory where
  history : List (List Note)
  index : ℤ
  notes : List Note
deriving DecidableEq, Repr

/-- The snapshot at the cursor, historyRef.current[historyIndexRef.current]
(undefined when the cursor is out of range, as for index -1). -/
def hGet (s : AppHistory) : Option (List Note) :=
  if s.index < 0 then none else s.history.get? s.index.toNat

/-- The truncate-and-append step of pushHistory:
historyRef.current.slice(0, historyIndexRef.current + 1) with the new
snapshot pushed at the end. -/
def pushTrimmed (c : List Note) (s : AppHistory) : List (List Note) :=
  s.history.take (s.index + 1).toNat ++ [c]

/-- Model of pushHistory in App: skip when the new state deep-equals the
snapshot at the cursor; otherwise truncate the forward branch, append the
snapshot, move the cursor to the end, and when the length exceeds 50 drop
the oldest entry and decrement the cursor. -/
def pushHistory (c : List Note) (s : AppHistory) : AppHistory :=
  if hGet s = some c then s
  else if 50 < (pushTrimmed c s).length then
    { history := (pushTrimmed c s).drop 1,
      index := ((pushTrimmed c s).length : ℤ) - 2, notes := s.notes }
  else
    { history := pushTrimmed c s,
      index := ((pushTrimmed c s).length : ℤ) - 1, notes := s.notes }

/-- Model of handleNotesChange in App: pushHistory followed by setNotes. -/
def commitNotes (c : List Note) (s : AppHistory) : AppHistory :=
  { pushHistory c s with notes := c }

/-- Model of undo in App: when the cursor is positive, decrement it and
replace the live notes with a copy of the snapshot at the new cursor. -/
def undo (s : AppHistory) : AppHistory :=
  if 0 < s.index then
    { s with index := s.index - 1,
             notes := (s.history.get? (s.index - 1).toNat).getD [] }
  else s

/-- Model of redo in App: when the cursor is before the last entry,
increment it and replace the live notes with the snapshot there. -/
def redo (s : AppHistory) : AppHistory :=
  if s.index < (s.history.length : ℤ) - 1 then
    { s with index := s.index + 1,
             notes := (s.history.get? (s.index + 1).toNat).getD [] }
  else s

/-- Model of the history reset in loadMidi: a single snapshot at cursor 0. -/
def loadNotes (c : List Note) (s : AppHistory) : AppHistory :=
  { history := [c], index := 0, notes := c }

/-- The state before anything is loaded: empty history, cursor -1. -/
def initialAppHistory : AppHistory := ⟨[], -1, []⟩

/-- The operations the App shell performs on the history. -/
inductive HistOp where
  | load : List Note → HistOp
  | commit : List Note → HistOp
  | doUndo : HistOp
  | doRedo : HistOp
deriving DecidableEq, Repr

def applyOp (s : AppHistory) (op : HistOp) : AppHistory :=
  match op with
  | .load c => loadNotes c s
  | .commit c => commitNotes c s
  | .doUndo => undo s
  | .doRedo => redo s

def applyOps (s : AppHistory) (ops : List HistOp) : AppHistory :=
  ops.foldl applyOp s

def isEdit (op : HistOp) : Bool :=
  match op with
  | .load _ => true
  | .commit _ => true
  | _ => false

/-- The history invariant of the claims: the cursor is a valid index and
the history never holds more than 50 snapshots. -/
def HistInv (s : AppHistory) : Prop :=
  0 ≤ s.index ∧ s.index < (s.history.length : ℤ) ∧ s.history.length ≤ 50

/-- A weak form of the invariant that also holds for the initial state,
before any snapshot exists. -/
def WeakInv (s : AppHistory) : Prop :=
  -1 ≤ s.index ∧ s.index < (s.history.length : ℤ) ∧ s.history.length ≤ 50

instance (s : AppHistory) : Decidable (HistInv s) := by
  unfold HistInv
  infer_instance

instance (s : AppHistory) : Decidable (WeakInv s) := by
  unfold WeakInv
  infer_instance

/-- C5: pushing a snapshot deep-equal to the snapshot at the cursor is a
no-op: the whole state is unchanged, so in particular the history length
does not grow and the cursor does not move. -/
theorem duplicate_push_noop (c : List Note) (s : AppHistory) (h : hGet s = some c) :
    pushHistory c s = s ∧
    (pushHistory c s).history.length = s.history.length ∧
    (pushHistory c s).index = s.index := by
  have heq : pushHistory c s = s := by
    unfold pushHistory
    rw [if_pos h]
  exact ⟨heq, by rw [heq], by rw [heq]⟩

/-- Witness for duplicate suppression: a one-snapshot history whose cursor
snapshot is pushed again. -/
theorem duplicate_push_noop_witness :
    hGet ⟨[[⟨60, 0, 1, none⟩]], 0, [⟨60, 0, 1, none⟩]⟩ = some [⟨60, 0, 1, none⟩] ∧
    (pushHistory [⟨60, 0, 1, none⟩] ⟨[[⟨60, 0, 1, none⟩]], 0, [⟨60, 0, 1, none⟩]⟩
        = ⟨[[⟨60, 0, 1, none⟩]], 0, [⟨60, 0, 1, none⟩]⟩ ∧
      (pushHistory [⟨60, 0, 1, none⟩] ⟨[[⟨60, 0, 1, none⟩]], 0, [⟨60, 0, 1, none⟩]⟩).history.length
        = ([[⟨60, 0, 1, none⟩]] : List (List Note)).length ∧
      (pushHistory [⟨60, 0, 1, none⟩] ⟨[[⟨60, 0, 1, none⟩]], 0, [⟨60, 0, 1, none⟩]⟩).index = 0) :=
  ⟨by simp [hGet], duplicate_push_noop _ _ (by simp [hGet])⟩

theorem loadNotes_inv (c : List Note) (s : AppHistory) : HistInv (loadNotes c s) := by
  unfold HistInv loadNotes
  norm_num

theorem pushTrimmed_length (c : List Note) (s : AppHistory) :
    (pushTrimmed c s).length = min (s.index + 1).toNat s.history.length + 1 := by
  simp [pushTrimmed, List.length_take]

theorem commitNotes_inv (c : List Note) (s : AppHistory) (h : WeakInv s) :
    HistInv (commitNotes c s) := by
  obtain ⟨h1, h2, h3⟩ := h
  have hl := pushTrimmed_length c s
  unfold commitNotes pushHistory
  by_cases hd : hGet s = some c
  · rw [if_pos hd]
    unfold hGet at hd
    split at hd
    · exact absurd hd (by simp)
    · rename_i hneg
      obtain ⟨hlt, -⟩ := List.get?_eq_some.mp hd
      refine ⟨?_, ?_, ?_⟩
      · show (0 : ℤ) ≤ s.index
        omega
      · show s.index < (s.history.length : ℤ)
        omega
      · exact h3
  · rw [if_neg hd]
    by_cases hbig : 50 < (pushTrimmed c s).length
    · rw [if_pos hbig]
      refine ⟨?_, ?_, ?_⟩
      · show (0 : ℤ) ≤ ((pushTrimmed c s).length : ℤ) - 2
        omega
      · show ((pushTrimmed c s).length : ℤ) - 2 < (((pushTrimmed c s).drop 1).length : ℤ)
        rw [List.length_drop]
        omega
      · show ((pushTrimmed c s).drop 1).length ≤ 50
        rw [List.length_drop]
        omega
    · rw [if_neg hbig]
      refine ⟨?_, ?_, ?_⟩
      · show (0 : ℤ) ≤ ((pushTrimmed c s).length : ℤ) - 1
        omega
      · show ((pushTrimmed c s).length : ℤ) - 1 < ((pushTrimmed c s).length : ℤ)
        omega
      · show (pushTrimmed c s).length ≤ 50
        omega

theorem undo_weakInv (s : AppHistory) (h : WeakInv s) : WeakInv (undo s) := by
  obtain ⟨h1, h2, h3⟩ := h
  unfold WeakInv undo
  split <;> refine ⟨?_, ?_, ?_⟩ <;> (try simp) <;> omega

theorem redo_weakInv (s : AppHistory) (h : WeakInv s) : WeakInv (redo s) := by
  obtain ⟨h1, h2, h3⟩ := h
  unfold WeakInv redo
  split <;> refine ⟨?_, ?_, ?_⟩ <;> (try simp) <;> omega

theorem undo_histInv (s : AppHistory) (h : HistInv s) : HistInv (undo s) := by
  obtain ⟨h1, h2, h3⟩ := h
  unfold HistInv undo
  split <;> refine ⟨?_, ?_, ?_⟩ <;> (try simp) <;> omega

theorem redo_histInv (s : AppHistory) (h : HistInv s) : HistInv (redo s) := by
  obtain ⟨h1, h2, h3⟩ := h
  unfold HistInv redo
  split <;> refine ⟨?_, ?_, ?_⟩ <;> (try simp) <;> omega

theorem histInv_weakInv (s : AppHistory) (h : HistInv s) : WeakInv s := by
  obtain ⟨h1, h2, h3⟩ := h
  exact ⟨by omega, h2, h3⟩

theorem applyOp_weakInv (s : AppHistory) (op : HistOp) (h : WeakInv s) :
    WeakInv (applyOp s op) := by
  cases op with
  | load c => exact histInv_weakInv _ (loadNotes_inv c s)
  | commit c => exact histInv_weakInv _ (commitNotes_inv c s h)
  | doUndo => exact undo_weakInv s h
  | doRedo => exact redo_weakInv s h

theorem applyOp_edit_histInv (s : AppHistory) (op : HistOp) (h : WeakInv s)
    (he : isEdit op = true) : HistInv (applyOp s op) := by
  cases op with
  | load c => exact loadNotes_inv c s
  | commit c => exact commitNotes_inv c s h
  | doUndo => exact absurd he (by simp [isEdit])
  | doRedo => exact absurd he (by simp [isEdit])

theorem applyOp_histInv (s : AppHistory) (op : HistOp) (h : HistInv s) :
    HistInv (applyOp s op) := by
  cases op with
  | load c => exact loadNotes_inv c s
  | commit c => exact commitNotes_inv c s (histInv_weakInv s h)
  | doUndo => exact undo_histInv s h
  | doRedo => exact redo_histInv s h

theorem applyOps_histInv (ops : List HistOp) : ∀ s : AppHistory, WeakInv s →
    (HistInv s ∨ ops.any isEdit = true) → HistInv (applyOps s ops) := by
  induction ops with
  | nil =>
    intro s hw h
    rcases h with h | h
    · exact h
    · simp at h
  | cons op rest ih =>
    intro s hw h
    show HistInv (applyOps (applyOp s op) rest)
    apply ih (applyOp s op) (applyOp_weakInv s op hw)
    rcases h with h | h
    · exact Or.inl (applyOp_histInv s op h)
    · rcases (List.any_cons ▸ h : (isEdit op || rest.any isEdit) = true) with h'
      rcases Bool.or_eq_true_iff.mp h' with h'' | h''
      · exact Or.inl (applyOp_edit_histInv s op hw h'')
      · exact Or.inr h''

/-- C6: after any sequence of load, commit, undo and redo operations from
the initial state that contains at least one load or commit, the history
cursor is a valid index and the history holds at most 50 snapshots. -/
theorem history_invariant (ops : List HistOp) (h : ops.any isEdit = true) :
    HistInv (applyOps initialAppHistory ops) :=
  applyOps_histInv ops initialAppHistory (by decide) (Or.inr h)

/-- Witness for the history invariant after one commit and one undo. -/
theorem history_invariant_witness :
    ([HistOp.commit [], HistOp.doUndo].any isEdit = true) ∧
    HistInv (applyOps initialAppHistory [HistOp.commit [], HistOp.doUndo]) :=
  ⟨by decide, history_invariant [HistOp.commit [], HistOp.doUndo] (by decide)⟩

/-- Fold of handleNotesChange commits, one per element. -/
def commitAll (cs : List (List Note)) (s : AppHistory) : AppHistory :=
  cs.foldl (fun t c => commitNotes c t) s

/-- Each commit in the sequence differs from the snapshot at the cursor at
the moment it is pushed (no duplicate no-ops). -/
def distinctCommitsB : AppHistory → List (List Note) → Bool
  | _, [] => true
  | s, c :: rest => !(decide (hGet s = some c)) && distinctCommitsB (commitNotes c s) rest

/-- The cursor sits on the last history entry. -/
def AtEnd (s : AppHistory) : Prop :=
  0 ≤ s.index ∧ s.index = (s.history.length : ℤ) - 1

/-- The live notes coincide with the snapshot at the cursor. -/
def NotesAtCursor (s : AppHistory) : Prop :=
  hGet s = some s.notes

theorem hGet_nonneg_eq (s : AppHistory) (h : 0 ≤ s.index) :
    hGet s = s.history.get? s.index.toNat := by
  unfold hGet
  rw [if_neg (by omega)]

theorem commitNotes_atEnd (c : List Note) (s : AppHistory) (h : ¬ hGet s = some c) :
    AtEnd (commitNotes c s) := by
  have hl : 1 ≤ (pushTrimmed c s).length := by
    simp [pushTrimmed]
  unfold commitNotes pushHistory
  rw [if_neg h]
  by_cases hbig : 50 < (pushTrimmed c s).length
  · rw [if_pos hbig]
    refine ⟨?_, ?_⟩
    · show (0 : ℤ) ≤ ((pushTrimmed c s).length : ℤ) - 2
      omega
    · show ((pushTrimmed c s).length : ℤ) - 2 = (((pushTrimmed c s).drop 1).length : ℤ) - 1
      rw [List.length_drop]
      omega
  · rw [if_neg hbig]
    refine ⟨?_, ?_⟩
    · show (0 : ℤ) ≤ ((pushTrimmed c s).length : ℤ) - 1
      omega
    · show ((pushTrimmed c s).length : ℤ) - 1 = ((pushTrimmed c s).length : ℤ) - 1
      rfl

theorem pushTrimmed_last (c : List Note) (s : AppHistory) :
    (pushTrimmed c s).get? ((pushTrimmed c s).length - 1) = some c := by
  unfold pushTrimmed
  have := List.get?_concat_length (s.history.take (s.index + 1).toNat) c
  simpa using this

theorem commitNotes_notesAtCursor (c : List Note) (s : AppHistory) :
    NotesAtCursor (commitNotes c s) := by
  unfold NotesAtCursor
  have hl : 1 ≤ (pushTrimmed c s).length := by
    simp [pushTrimmed]
  unfold commitNotes pushHistory
  by_cases hd : hGet s = some c
  · rw [if_pos hd]
    have : hGet { s with notes := c } = hGet s := rfl
    rw [this, hd]
  · rw [if_neg hd]
    by_cases hbig : 50 < (pushTrimmed c s).length
    · rw [if_pos hbig]
      show hGet _ = some c
      rw [hGet_nonneg_eq _ (by show (0:ℤ) ≤ ((pushTrimmed c s).length : ℤ) - 2; omega)]
      show ((pushTrimmed c s).drop 1).get? ((((pushTrimmed c s).length : ℤ) - 2)).toNat = some c
      rw [List.get?_drop]
      have harg : 1 + ((((pushTrimmed c s).length : ℤ) - 2)).toNat
          = (pushTrimmed c s).length - 1 := by omega
      rw [harg]
      exact pushTrimmed_last c s
    · rw [if_neg hbig]
      show hGet _ = some c
      rw [hGet_nonneg_eq _ (by show (0:ℤ) ≤ ((pushTrimmed c s).length : ℤ) - 1; omega)]
      show (pushTrimmed c s).get? ((((pushTrimmed c s).length : ℤ) - 1)).toNat = some c
      have harg : ((((pushTrimmed c s).length : ℤ) - 1)).toNat
          = (pushTrimmed c s).length - 1 := by omega
      rw [harg]
      exact pushTrimmed_last c s

theorem commitAll_atEnd (cs : List (List Note)) : ∀ s : AppHistory, cs ≠ [] →
    distinctCommitsB s cs = true →
    AtEnd (commitAll cs s) ∧ NotesAtCursor (commitAll cs s) := by
  induction cs with
  | nil => intro s h; exact absurd rfl h
  | cons c rest ih =>
    intro s _ hd
    have hd1 : ¬ hGet s = some c := by
      have := (Bool.and_eq_true _ _).mp hd
      simpa using this.1
    have hd2 : distinctCommitsB (commitNotes c s) rest = true := by
      have := (Bool.and_eq_true _ _).mp hd
      exact this.2
    show AtEnd (commitAll rest (commitNotes c s)) ∧ NotesAtCursor (commitAll rest (commitNotes c s))
    rcases rest with _ | ⟨c2, rest2⟩
    · exact ⟨commitNotes_atEnd c s hd1, commitNotes_notesAtCursor c s⟩
    · exact ih (commitNotes c s) (by simp) hd2

theorem undo_history_eq (s : AppHistory) : (undo s).history = s.history := by
  unfold undo
  split <;> rfl

theorem redo_history_eq (s : AppHistory) : (redo s).history = s.history := by
  unfold redo
  split <;> rfl

theorem undoN_history_eq (n : ℕ) (s : AppHistory) : (undo^[n] s).history = s.history := by
  induction n with
  | zero => rfl
  | succ m ih =>
    rw [Function.iterate_succ_apply', undo_history_eq, ih]

theorem redoN_history_eq (n : ℕ) (s : AppHistory) : (redo^[n] s).history = s.history := by
  induction n with
  | zero => rfl
  | succ m ih =>
    rw [Function.iterate_succ_apply', redo_history_eq, ih]

theorem undo_index_eq (s : AppHistory) (h : 0 ≤ s.index) :
    (undo s).index = max 0 (s.index - 1) := by
  unfold undo
  split <;> (try simp) <;> omega

theorem redo_index_eq (s : AppHistory) (h : 0 ≤ s.index)
    (h2 : s.index < (s.history.length : ℤ)) :
    (redo s).index = min ((s.history.length : ℤ) - 1) (s.index + 1) := by
  unfold redo
  split <;> (try simp) <;> omega

theorem notesAtCursor_bounds (s : AppHistory) (h : NotesAtCursor s) :
    0 ≤ s.index ∧ s.index < (s.history.length : ℤ) := by
  unfold NotesAtCursor hGet at h
  split at h
  · exact absurd h (by simp)
  · obtain ⟨hlt, -⟩ := List.get?_eq_some.mp h
    omega

theorem undo_notesAtCursor (s : AppHistory) (h : NotesAtCursor s) :
    NotesAtCursor (undo s) := by
  obtain ⟨h0, hlt⟩ := notesAtCursor_bounds s h
  unfold NotesAtCursor
  unfold undo
  split
  · rename_i hpos
    have hlt2 : (s.index - 1).toNat < s.history.length := by omega
    have hv : s.history.get? (s.index - 1).toNat
        = some (s.history.get ⟨(s.index - 1).toNat, hlt2⟩) := List.get?_eq_get hlt2
    show hGet _ = some _
    rw [hGet_nonneg_eq _ (by show (0:ℤ) ≤ s.index - 1; omega)]
    show s.history.get? (s.index - 1).toNat = some ((s.history.get? (s.index - 1).toNat).getD [])
    rw [hv]
    rfl
  · exact h

theorem redo_notesAtCursor (s : AppHistory) (h : NotesAtCursor s) :
    NotesAtCursor (redo s) := by
  obtain ⟨h0, hlt⟩ := notesAtCursor_bounds s h
  unfold NotesAtCursor
  unfold redo
  split
  · rename_i hpos
    have hlt2 : (s.index + 1).toNat < s.history.length := by omega
    have hv : s.history.get? (s.index + 1).toNat
        = some (s.history.get ⟨(s.index + 1).toNat, hlt2⟩) := List.get?_eq_get hlt2
    show hGet _ = some _
    rw [hGet_nonneg_eq _ (by show (0:ℤ) ≤ s.index + 1; omega)]
    show s.history.get? (s.index + 1).toNat = some ((s.history.get? (s.index + 1).toNat).getD [])
    rw [hv]
    rfl
  · exact h

theorem undoN_notesAtCursor (n : ℕ) (s : AppHistory) (h : NotesAtCursor s) :
    NotesAtCursor (undo^[n] s) := by
  induction n with
  | zero => exact h
  | succ m ih =>
    rw [Function.iterate_succ_apply']
    exact undo_notesAtCursor _ ih

theorem redoN_notesAtCursor (n : ℕ) (s : AppHistory) (h : NotesAtCursor s) :
    NotesAtCursor (redo^[n] s) := by
  induction n with
  | zero => exact h
  | succ m ih =>
    rw [Function.iterate_succ_apply']
    exact redo_notesAtCursor _ ih

theorem undoN_index_eq (n : ℕ) (s : AppHistory) (h : 0 ≤ s.index) :
    (undo^[n] s).index = max 0 (s.index - n) := by
  induction n with
  | zero =>
    rw [Function.iterate_zero_apply]
    push_cast
    omega
  | succ m ih =>
    rw [Function.iterate_succ_apply']
    rw [undo_index_eq _ (by rw [ih]; omega), ih]
    push_cast
    omega

theorem redoN_index_eq (n : ℕ) (s : AppHistory) (h : 0 ≤ s.index)
    (h2 : s.index < (s.history.length : ℤ)) :
    (redo^[n] s).index = min ((s.history.length : ℤ) - 1) (s.index + n) := by
  induction n with
  | zero =>
    rw [Function.iterate_zero_apply]
    push_cast
    omega
  | succ m ih =>
    rw [Function.iterate_succ_apply']
    have hh := redoN_history_eq m s
    rw [redo_index_eq _ (by rw [ih]; omega) (by rw [ih, hh]; omega), ih, hh]
    push_cast
    omega

/-- C1: after any nonempty sequence of distinct (non-duplicate) commits,
undoing once per commit and then redoing once per commit restores the live
note sequence to exactly the state after the last commit. -/
theorem history_round_trip (s : AppHistory) (cs : List (List Note))
    (hidx : -1 ≤ s.index) (hne : cs ≠ []) (hd : distinctCommitsB s cs = true) :
    (redo^[cs.length] (undo^[cs.length] (commitAll cs s))).notes = (commitAll cs s).notes := by
  obtain ⟨⟨hi0, hiEnd⟩, hCur⟩ := commitAll_atEnd cs s hne hd
  set s1 := commitAll cs s with hs1
  set n := cs.length with hn
  have hL : 1 ≤ s1.history.length := by omega
  -- after the undos
  have hu_hist : (undo^[n] s1).history = s1.history := undoN_history_eq n s1
  have hu_index : (undo^[n] s1).index = max 0 (s1.index - n) := undoN_index_eq n s1 hi0
  have hu_cur : NotesAtCursor (undo^[n] s1) := undoN_notesAtCursor n s1 hCur
  -- after the redos
  have hr_hist : (redo^[n] (undo^[n] s1)).history = s1.history := by
    rw [redoN_history_eq, hu_hist]
  have hr_index : (redo^[n] (undo^[n] s1)).index = s1.index := by
    rw [redoN_index_eq n _ (by rw [hu_index]; omega)
      (by rw [hu_index, hu_hist]; omega), hu_index, hu_hist]
    omega
  have hr_cur : NotesAtCursor (redo^[n] (undo^[n] s1)) := redoN_notesAtCursor n _ hu_cur
  -- both states read the same snapshot
  unfold NotesAtCursor at hr_cur hCur
  rw [hGet_nonneg_eq _ (by rw [hr_index]; omega), hr_index, hr_hist] at hr_cur
  rw [hGet_nonneg_eq _ hi0] at hCur
  rw [hCur] at hr_cur
  exact (Option.some_injective _ hr_cur).symm

/-- Witness for the history round trip: two distinct commits from the
initial state, two undos, two redos. -/
theorem history_round_trip_witness :
    ((-1 : ℤ) ≤ initialAppHistory.index ∧
      ([[⟨60, 0, 1, none⟩], []] : List (List Note)) ≠ [] ∧
      distinctCommitsB initialAppHistory [[⟨60, 0, 1, none⟩], []] = true) ∧
    (redo^[([[⟨60, 0, 1, none⟩], []] : List (List Note)).length]
        (undo^[([[⟨60, 0, 1, none⟩], []] : List (List Note)).length]
          (commitAll [[⟨60, 0, 1, none⟩], []] initialAppHistory))).notes
      = (commitAll [[⟨60, 0, 1, none⟩], []] initialAppHistory).notes :=
  ⟨⟨by decide, by simp, by decide⟩,
    history_round_trip initialAppHistory [[⟨60, 0, 1, none⟩], []]
      (by decide) (by simp) (by decide)⟩

end History

section HitTest

/-- Model of Array.prototype.findIndex: the index of the first element
satisfying the predicate. -/
def jsFindIndex (p : α → Bool) : List α → Option ℕ
  | [] => none
  | a :: l => if p a then some 0 else (jsFindIndex p l).map (· + 1)

/-- The per-note predicate of findNoteAtPosition in
HorizontalPianoRoll.tsx: the pitch lies in the displayed range and the
click point lies in the rendered rectangle, whose edges are all inclusive,
with the minimum visual width of 6 px and height rowHeight - 1. -/
def noteHit (pps noteH : ℚ) (minN maxN : ℤ) (clickX clickY : ℚ) (n : Note) : Bool :=
  decide (minN ≤ n.pitch) && decide (n.pitch ≤ maxN) &&
  decide (n.startTime * pps ≤ clickX) &&
  decide (clickX ≤ n.startTime * pps + max (n.duration * pps) 6) &&
  decide (((maxN - n.pitch : ℤ) : ℚ) * noteH ≤ clickY) &&
  decide (clickY ≤ ((maxN - n.pitch : ℤ) : ℚ) * noteH + (noteH - 1))

/-- Model of findNoteAtPosition: the first note, in store order, whose
rendered rectangle contains the click point. -/
def findNoteAtPosition (pps noteH : ℚ) (minN maxN : ℤ) (notes : List Note)
    (clickX clickY : ℚ) : Option ℕ :=
  jsFindIndex (noteHit pps noteH minN maxN clickX clickY) notes

theorem jsFindIndex_eq_some_iff [Inhabited α] (p : α → Bool) (l : List α) :
    ∀ i : ℕ, jsFindIndex p l = some i ↔
      i < l.length ∧ p (l.getD i default) = true ∧
        ∀ j, j < i → p (l.getD j default) = false := by
  induction l with
  | nil =>
    intro i
    simp [jsFindIndex]
  | cons a l ih =>
    intro i
    unfold jsFindIndex
    by_cases hpa : p a = true
    · rw [if_pos hpa]
      constructor
      · intro h
        have hi : i = 0 := by
          have := Option.some_injective _ h.symm
          omega
        subst hi
        exact ⟨by simp, hpa, by omega⟩
      · rintro ⟨hlen, hp, hall⟩
        rcases Nat.eq_zero_or_pos i with hi | hi
        · subst hi; rfl
        · have h0 := hall 0 hi
          rw [List.getD_cons_zero, hpa] at h0
          exact absurd h0 (by simp)
    · rw [if_neg hpa]
      have hpa' : p a = false := by
        cases h : p a
        · rfl
        · exact absurd h hpa
      constructor
      · intro h
        obtain ⟨i', hi', rfl⟩ := Option.map_eq_some'.mp h
        obtain ⟨hlen, hp, hall⟩ := (ih i').mp hi'
        refine ⟨by simpa using Nat.succ_lt_succ hlen, hp, ?_⟩
        intro j hj
        cases j with
        | zero => exact hpa'
        | succ j' => exact hall j' (by omega)
      · rintro ⟨hlen, hp, hall⟩
        cases i with
        | zero =>
          rw [List.getD_cons_zero] at hp
          exact absurd hp hpa
        | succ i' =>
          have hmem : jsFindIndex p l = some i' := by
            apply (ih i').mpr
            refine ⟨by simpa using Nat.lt_of_succ_lt_succ hlen, hp, ?_⟩
            intro j hj
            exact hall (j + 1) (by omega)
          rw [hmem]
          rfl

/-- C9 counterexample: the claimed concrete instance is inconsistent with
the stated geometry: a note with startTime 1.0 at 100 px/s has its left
edge at x = 100, not 1000, so a click at x = 1005 does not hit it. -/
theorem hit_test_counterexample :
    ((1 : ℚ) * 100 = 100 ∧ (1 : ℚ) * 100 ≠ 1000) ∧
    findNoteAtPosition 100 10 48 72 [⟨60, 1, 1/10, none⟩] 1005 125 = none := by
  refine ⟨⟨by norm_num, by norm_num⟩, ?_⟩
  show (if noteHit 100 10 48 72 1005 125 ⟨60, 1, 1/10, none⟩ then some 0
    else (jsFindIndex (noteHit 100 10 48 72 1005 125) []).map (· + 1)) = none
  rw [if_neg]
  · rfl
  · norm_num [noteHit]

/-- C9 amended: the point hit test returns the first note in store order
whose rendered inclusive rectangle (left edge startTime * pps, width
max(duration * pps, 6), top (maxNote - pitch) * rowHeight, height
rowHeight - 1) contains the click; a note with startTime 1.0 and duration
0.1 at 100 px/s has width max(10, 6) = 10 and left edge 100, so clicks at
x = 105 and x = 110 in its row hit it while a click at x = 111 does not. -/
theorem hit_test_first_match :
    (∀ (pps noteH : ℚ) (minN maxN : ℤ) (notes : List Note) (x y : ℚ) (i : ℕ),
      findNoteAtPosition pps noteH minN maxN notes x y = some i ↔
        i < notes.length ∧
        noteHit pps noteH minN maxN x y (notes.getD i default) = true ∧
        ∀ j, j < i → noteHit pps noteH minN maxN x y (notes.getD j default) = false) ∧
    max ((1/10 : ℚ) * 100) 6 = 10 ∧
    findNoteAtPosition 100 10 48 72 [⟨60, 1, 1/10, none⟩] 105 125 = some 0 ∧
    findNoteAtPosition 100 10 48 72 [⟨60, 1, 1/10, none⟩] 110 125 = some 0 ∧
    findNoteAtPosition 100 10 48 72 [⟨60, 1, 1/10, none⟩] 111 125 = none := by
  refine ⟨fun pps noteH minN maxN notes x y i =>
    jsFindIndex_eq_some_iff (noteHit pps noteH minN maxN x y) notes i, by norm_num, ?_, ?_, ?_⟩
  · show (if noteHit 100 10 48 72 105 125 ⟨60, 1, 1/10, none⟩ then some 0
      else (jsFindIndex (noteHit 100 10 48 72 105 125) []).map (· + 1)) = some 0
    rw [if_pos]
    norm_num [noteHit]
  · show (if noteHit 100 10 48 72 110 125 ⟨60, 1, 1/10, none⟩ then some 0
      else (jsFindIndex (noteHit 100 10 48 72 110 125) []).map (· + 1)) = some 0
    rw [if_pos]
    norm_num [noteHit]
  · show (if noteHit 100 10 48 72 111 125 ⟨60, 1, 1/10, none⟩ then some 0
      else (jsFindIndex (noteHit 100 10 48 72 111 125) []).map (· + 1)) = none
    rw [if_neg]
    · rfl
    · norm_num [noteHit]

end HitTest

section KeyboardHandler

/-- The keys handled by the piano-roll keydown listener. -/
inductive RollKey where
  | keyQ
  | arrowLeft
  | arrowRight
  | arrowUp
  | arrowDown
  | keyDelete
  | keyEscape
  | selectAll
deriving DecidableEq, Repr

/-- The selection-relevant state of the component: the note store prop and
the selected index set. -/
structure RollState where
  notes : List Note
  selected : Finset ℕ
deriving DecidableEq

/-- The Q-key branch: quantize every selected index. -/
def quantizeSelected (sps offset : ℚ) (sel : Finset ℕ) (notes : List Note) : List Note :=
  notes.mapIdx (fun i n =>
    if i ∈ sel then { n with startTime := quantizeStart sps offset n.startTime } else n)

/-- The ArrowLeft/ArrowRight branch: nudge every selected index. -/
def nudgeSelected (sps offset : ℚ) (dir : ℤ) (sel : Finset ℕ) (notes : List Note) : List Note :=
  notes.mapIdx (fun i n =>
    if i ∈ sel then { n with startTime := nudgeStart sps offset dir n.startTime } else n)

/-- The ArrowUp/ArrowDown branch: transpose every selected index, clamped
to the displayed pitch range. -/
def nudgePitchSelected (minN maxN : ℤ) (dir : ℤ) (sel : Finset ℕ) (notes : List Note) :
    List Note :=
  notes.mapIdx (fun i n =>
    if i ∈ sel then { n with pitch := max minN (min maxN (n.pitch + dir)) } else n)

/-- The Delete/Backspace branch: drop every selected index. -/
def deleteSelected (sel : Finset ℕ) (notes : List Note) : List Note :=
  (notes.enum.filter (fun p => p.1 ∉ sel)).map (fun p => p.2)

/-- Model of handleKeyDown in HorizontalPianoRoll.tsx.  The guard at the
top of the listener returns unchanged whenever the selection is empty or no
onNotesChange collaborator is present; it applies to every key binding,
including Escape and Ctrl/Cmd+A. -/
def handleRollKey (tempo : ℚ) (subdivName : String) (offset : ℚ) (minN maxN : ℤ)
    (hasNotify : Bool) (k : RollKey) (st : RollState) : RollState :=
  if st.selected = ∅ ∨ hasNotify = false then st
  else
    match k with
    | .keyQ =>
      { st with notes := quantizeSelected (secondsPerSubdiv tempo (getSubdivisionBeats subdivName)) offset st.selected st.notes }
    | .arrowLeft =>
      { st with notes := nudgeSelected (secondsPerSubdiv tempo (getSubdivisionBeats subdivName)) offset (-1) st.selected st.notes }
    | .arrowRight =>
      { st with notes := nudgeSelected (secondsPerSubdiv tempo (getSubdivisionBeats subdivName)) offset 1 st.selected st.notes }
    | .arrowUp =>
      { st with notes := nudgePitchSelected minN maxN 1 st.selected st.notes }
    | .arrowDown =>
      { st with notes := nudgePitchSelected minN maxN (-1) st.selected st.notes }
    | .keyDelete =>
      { notes := deleteSelected st.selected st.notes, selected := ∅ }
    | .keyEscape =>
      { st with selected := ∅ }
    | .selectAll =>
      { st with selected := Finset.range st.notes.length }

/-- C8 counterexample: with the empty selection and a collaborator
present, Ctrl/Cmd+A is a no-op (the guard returns early), so the selection
stays empty instead of becoming every index of the one-note store. -/
theorem select_all_not_unconditional :
    (handleRollKey 120 "1/8" 0 21 108 true RollKey.selectAll
        ⟨[⟨60, 0, 1, none⟩], ∅⟩).selected = ∅ ∧
    Finset.range ([⟨60, 0, 1, none⟩] : List Note).length ≠ (∅ : Finset ℕ) := by
  constructor
  · show (if (∅ : Finset ℕ) = ∅ ∨ true = false then
        (⟨[⟨60, 0, 1, none⟩], ∅⟩ : RollState)
      else _).selected = ∅
    rw [if_pos (Or.inl rfl)]
  · simp

/-- C8 amended: every binding of the listener, select-all and escape
included, is guarded by a non-empty selection and a present collaborator;
under that guard, Ctrl/Cmd+A sets the selection to every index of the note
store without touching the notes, and Escape clears the selection without
touching the notes. -/
theorem select_all_escape_guarded (tempo : ℚ) (subdivName : String) (offset : ℚ)
    (minN maxN : ℤ) (st : RollState) (hsel : st.selected ≠ ∅) :
    (handleRollKey tempo subdivName offset minN maxN true RollKey.selectAll st).selected
        = Finset.range st.notes.length ∧
    (handleRollKey tempo subdivName offset minN maxN true RollKey.selectAll st).notes
        = st.notes ∧
    (handleRollKey tempo subdivName offset minN maxN true RollKey.keyEscape st).selected
        = (∅ : Finset ℕ) ∧
    (handleRollKey tempo subdivName offset minN maxN true RollKey.keyEscape st).notes
        = st.notes ∧
    (∀ k : RollKey, handleRollKey tempo subdivName offset minN maxN false k st = st) ∧
    (∀ (k : RollKey) (st2 : RollState) (b : Bool), st2.selected = ∅ →
      handleRollKey tempo subdivName offset minN maxN b k st2 = st2) := by
  have hguard : ¬ (st.selected = ∅ ∨ true = false) := by
    rintro (h | h)
    · exact hsel h
    · exact absurd h (by simp)
  refine ⟨?_, ?_, ?_, ?_, ?_, ?_⟩
  · unfold handleRollKey
    rw [if_neg hguard]
  · unfold handleRollKey
    rw [if_neg hguard]
  · unfold handleRollKey
    rw [if_neg hguard]
  · unfold handleRollKey
    rw [if_neg hguard]
  · intro k
    unfold handleRollKey
    rw [if_pos (Or.inr rfl)]
  · intro k st2 b h
    unfold handleRollKey
    rw [if_pos (Or.inl h)]


/-- Witness for the guarded select-all and escape behaviour at a one-note
store with index 0 selected. -/
theorem select_all_escape_guarded_witness :
    ((⟨[⟨60, 0, 1, none⟩], {0}⟩ : RollState).selected ≠ ∅) ∧
    ((handleRollKey 120 "1/8" 0 21 108 true RollKey.selectAll
        ⟨[⟨60, 0, 1, none⟩], {0}⟩).selected
      = Finset.range (⟨[⟨60, 0, 1, none⟩], {0}⟩ : RollState).notes.length ∧
    (handleRollKey 120 "1/8" 0 21 108 true RollKey.selectAll
        ⟨[⟨60, 0, 1, none⟩], {0}⟩).notes
      = (⟨[⟨60, 0, 1, none⟩], {0}⟩ : RollState).notes ∧
    (handleRollKey 120 "1/8" 0 21 108 true RollKey.keyEscape
        ⟨[⟨60, 0, 1, none⟩], {0}⟩).selected = (∅ : Finset ℕ) ∧
    (handleRollKey 120 "1/8" 0 21 108 true RollKey.keyEscape
        ⟨[⟨60, 0, 1, none⟩], {0}⟩).notes
      = (⟨[⟨60, 0, 1, none⟩], {0}⟩ : RollState).notes ∧
    (∀ k : RollKey, handleRollKey 120 "1/8" 0 21 108 false k
        ⟨[⟨60, 0, 1, none⟩], {0}⟩ = ⟨[⟨60, 0, 1, none⟩], {0}⟩) ∧
    (∀ (k : RollKey) (st2 : RollState) (b : Bool), st2.selected = ∅ →
      handleRollKey 120 "1/8" 0 21 108 b k st2 = st2)) :=
  ⟨by simp,
    select_all_escape_guarded 120 "1/8" 0 21 108 ⟨[⟨60, 0, 1, none⟩], {0}⟩ (by simp)⟩

end KeyboardHandler
